import Mathlib

/-!
Verification development for the cpp-set repository (files
src/classes/set.hpp and the render protocol of the second header
variant).  The two container templates are shallowly embedded: the
backing std::vector becomes a Lean List, the stateless comparison
functor becomes an explicit Bool-valued binary function, and every
member function of the source is translated loop by loop.  Loops that
the source writes with iterators are rendered as index-based recursion;
an iterator that runs past the vector (undefined behaviour in C++) is
modelled by an explicit error value, and while-loops receive a fuel
argument that the public wrappers instantiate with a provably
sufficient bound.  Machine-integer conversions that matter (the
int-to-size_t conversions in combinations and _increase_counters) are
modelled with explicit arithmetic modulo 2^64.
-/

namespace CppSet

/-- Error outcomes of modelled executions: an out-of-bounds vector
access or an iterator dereference past the end (undefined behaviour in
the C++ source), the std::out_of_range exception that combinations
throws, the std::length_error a negative vector size would raise, and
exhaustion of the fuel a modelled while-loop was given. -/
inductive CppErr where
  | outOfBounds
  | outOfRange
  | lengthError
  | fuelExhausted
deriving DecidableEq

/-- Value of an Int reinterpreted as a 64-bit unsigned integer, the
conversion C++ applies when an int or long meets a size_t operand. -/
def u64 (x : Int) : Nat := (x % (2 : Int) ^ 64).toNat

namespace UnorderedSet

variable {α : Type}

/-- UnorderedSet::find translated to the index-free question the
callers ask: the first stored element x with cmp x value, where cmp is
the _equal_compare functor applied in the source's argument order
(stored element first, probe second). -/
def find? (cmp : α → α → Bool) (l : List α) (value : α) : Option α :=
  List.find? (fun x => cmp x value) l

/-- UnorderedSet::insert(value, unique): push_back unless unique is set
and find locates an equivalent element. -/
def insert (cmp : α → α → Bool) (unique : Bool) (l : List α) (value : α) : List α :=
  if !unique || (find? cmp l value).isNone then l ++ [value] else l

/-- UnorderedSet::contains(set, strict = false): every element of s has
an equivalent stored element; the source compares with
_equal_compare()(value, v), probe first. -/
def containsAll (cmp : α → α → Bool) (l : List α) (s : List α) : Bool :=
  s.all (fun value => l.any (fun v => cmp value v))

/-- UnorderedSet::contains(set, strict): strict demands containment in
both directions, otherwise the one-sided scan runs. -/
def contains (cmp : α → α → Bool) (l : List α) (s : List α) (strict : Bool) : Bool :=
  if strict then containsAll cmp l s && containsAll cmp s l
  else containsAll cmp l s

/-- UnorderedSet::contains(value): membership of a single value via a
temporary one-element set. -/
def containsVal (cmp : α → α → Bool) (l : List α) (value : α) : Bool :=
  contains cmp l [value] false

/-- UnorderedSet::operator==: sizes must agree, then strict mutual
containment. -/
def eq (cmp : α → α → Bool) (l : List α) (other : List α) : Bool :=
  if l.length != other.length then false
  else contains cmp l other true

/-- UnorderedSet::operator+ on two sets: copy the left operand and
insert every element of the right one with the default unique mode. -/
def union (cmp : α → α → Bool) (l : List α) (s : List α) : List α :=
  s.foldl (fun ret value => insert cmp true ret value) l

/-- UnorderedSet::erase(value, all = false): find the first stored
element equivalent to the value and erase it, reporting how many were
removed; absent a match the sequence is returned unchanged with
count 0. -/
def eraseFirst (cmp : α → α → Bool) (l : List α) (value : α) : Nat × List α :=
  match l with
  | [] => (0, [])
  | x :: xs =>
    if cmp x value then (1, xs)
    else ((eraseFirst cmp xs value).1, x :: (eraseFirst cmp xs value).2)

/-- Loop of UnorderedSet::erase(value, all = true).  The source
advances a vector iterator while erasing under it: after an erase the
iterator indexes the element one past the match, and the loop guard
compares against the current end(), so an index that jumps over the
shrunken length keeps the loop running into an out-of-bounds
dereference. -/
def eraseAllLoop (cmp : α → α → Bool) (value : α) :
    Nat → List α → Nat → Nat → Except CppErr (Nat × List α)
  | 0, _, _, _ => .error .fuelExhausted
  | fuel + 1, l, i, ret =>
    if i = l.length then .ok (ret, l)
    else
      match l[i]? with
      | some x =>
        if cmp x value then
          eraseAllLoop cmp value fuel (l.eraseIdx i) (i + 1) (ret + 1)
        else
          eraseAllLoop cmp value fuel l (i + 1) ret
      | none => .error .outOfBounds

/-- UnorderedSet::erase(value, all): the all = false branch finds and
erases the first equivalent element, the all = true branch runs the
iterator loop; the wrapper hands the loop enough fuel for every
reachable execution (the index grows by one per step and the loop stops
or fails once it passes the length). -/
def erase (cmp : α → α → Bool) (all : Bool) (l : List α) (value : α) :
    Except CppErr (Nat × List α) :=
  if !all then .ok (eraseFirst cmp l value)
  else eraseAllLoop cmp value (l.length + 2) l 0 0

/-- UnorderedSet::operator- on two sets: copy the left operand, then
call the single-occurrence erase for every element of the right one. -/
def diff (cmp : α → α → Bool) (l : List α) (s : List α) : List α :=
  s.foldl (fun ret v => (eraseFirst cmp ret v).2) l

/-- Inner loop of UnorderedSet::unique: j starts one past i and is
incremented every pass; the body erases at j only when the iterators i
and j coincide, which positional equality decides. -/
def uniqueInner (i : Nat) : Nat → Nat → List α → List α
  | 0, _, l => l
  | fuel + 1, j, l =>
    if j < l.length then
      uniqueInner i fuel (j + 1) (if i = j then l.eraseIdx j else l)
    else l

/-- Outer loop of UnorderedSet::unique over the iterator i. -/
def uniqueOuter : Nat → Nat → List α → List α
  | 0, _, l => l
  | fuel + 1, i, l =>
    if i < l.length then
      uniqueOuter fuel (i + 1) (uniqueInner i (l.length + 1) (i + 1) l)
    else l

/-- UnorderedSet::unique with fuel large enough for both loops. -/
def unique (l : List α) : List α :=
  uniqueOuter (l.length + 1) 0 l

/-- Loop of UnorderedSet::intersectionWith.  The source iterates the
range-for over s1 while erasing from s1; the end iterator is computed
once (the initial length n0) and does not follow the erasures, so the
loop keeps dereferencing positions of the original extent even after
the vector has shrunk below them. -/
def interLoop (cmp : α → α → Bool) (s2 : List α) :
    Nat → List α → Nat → Nat → Except CppErr (List α)
  | 0, _, _, _ => .error .fuelExhausted
  | fuel + 1, s1, i, n0 =>
    if i = n0 then .ok s1
    else
      match s1[i]? with
      | some v =>
        interLoop cmp s2 fuel
          (if !(containsVal cmp s2 v) then (eraseFirst cmp s1 v).2 else s1)
          (i + 1) n0
      | none => .error .outOfBounds

/-- UnorderedSet::intersectionWith: the smaller operand becomes the
enumeration source s1, the other the membership oracle s2. -/
def intersectionWith (cmp : α → α → Bool) (l : List α) (s : List α) :
    Except CppErr (List α) :=
  let s1 := if s.length ≤ l.length then s else l
  let s2 := if s.length ≤ l.length then l else s
  interLoop cmp s2 (s1.length + 1) s1 0 s1.length

/-- Body of the do-while in _increase_counters.  ++c[i] happens before
the comparison and its increment persists even when the bound check
fails; the comparison int <= size_t is performed unsigned, and c[i]
with a negative or too large i is an out-of-bounds vector access. -/
def icLoop (limit : Int) (csize : Nat) :
    Nat → List Int → Int → Except CppErr (Option (List Int × Int))
  | 0, _, _ => .error .fuelExhausted
  | fuel + 1, c, i =>
    if i < 0 ∨ i ≥ (csize : Int) then .error .outOfBounds
    else
      match c.get? i.toNat with
      | some v =>
        let c1 := c.set i.toNat (v + 1)
        if u64 (v + 1) ≤ u64 (limit - ((csize : Int) - i - 1)) then
          .ok (some (c1, i))
        else
          if i - 1 < 0 then .ok none else icLoop limit csize fuel c1 (i - 1)
      | none => .error .outOfBounds

/-- Trailing while of _increase_counters: after the found index, every
counter to its right restarts one above its left neighbour; the guard
i < c.size() compares a long against a size_t, hence unsigned. -/
def icFill (csize : Nat) : Nat → List Int → Int → Except CppErr (List Int)
  | 0, _, _ => .error .fuelExhausted
  | fuel + 1, c, i =>
    if u64 i < csize then
      match c.get? (i - 1).toNat with
      | some prev => icFill csize fuel (c.set i.toNat (prev + 1)) (i + 1)
      | none => .error .outOfBounds
    else .ok c

/-- UnorderedSet::_increase_counters.  Both long int initialisations
subtract 1 in size_t and reinterpret the result signed, producing -1
for an empty vector. -/
def increaseCounters (setSize : Nat) (c : List Int) :
    Except CppErr (Option (List Int)) :=
  let limit : Int := (setSize : Int) - 1
  match icLoop limit c.length (c.length + 1) c ((c.length : Int) - 1) with
  | .error e => .error e
  | .ok none => .ok none
  | .ok (some (c1, i)) =>
    match icFill c.length (c.length + 1) c1 (i + 1) with
    | .error e => .error e
    | .ok c2 => .ok (some c2)

/-- Materialisation of one combination: s += _set[index] for every
counter, where insert runs with the default unique mode and the
vector subscript fails out of bounds. -/
def materialize (cmp : α → α → Bool) (l : List α) :
    List Int → List α → Except CppErr (List α)
  | [], s => .ok s
  | idx :: rest, s =>
    if idx < 0 ∨ idx ≥ (l.length : Int) then .error .outOfBounds
    else
      match l.get? idx.toNat with
      | some x => materialize cmp l rest (insert cmp true s x)
      | none => .error .outOfBounds

/-- Do-while of UnorderedSet::combinations: build the selection of the
current counters, add it to the result set (whose equality predicate is
the set operator==), then advance the counters. -/
def combosLoop (cmp : α → α → Bool) (l : List α) :
    Nat → List Int → List (List α) → Except CppErr (List (List α))
  | 0, _, _ => .error .fuelExhausted
  | fuel + 1, c, ret =>
    match materialize cmp l c [] with
    | .error e => .error e
    | .ok s =>
      let ret1 := insert (fun a b => eq cmp a b) true ret s
      match increaseCounters l.length c with
      | .error e => .error e
      | .ok none => .ok ret1
      | .ok (some c1) => combosLoop cmp l fuel c1 ret1

/-- UnorderedSet::combinations(n).  The guard n > _set.size() converts
the int n to size_t, so negative n also throws; afterwards the counter
vector 0..n-1 is built and the do-while enumerates; 2^size + 1 fuel
covers every run because each selection of indices appears at most
once. -/
def combinations (cmp : α → α → Bool) (l : List α) (n : Int) :
    Except CppErr (List (List α)) :=
  if u64 n > l.length then .error .outOfRange
  else if n < 0 then .error .lengthError
  else combosLoop cmp l (2 ^ l.length + 1) ((List.range n.toNat).map Int.ofNat) []

end UnorderedSet

/-- Options of the render protocol, defaults compact, no trailing
separator, comma. -/
structure PrintOptions where
  compact : Bool
  trailingSeparator : Bool
  separator : String

/-- Default-constructed PrintOptions. -/
def PrintOptions.default : PrintOptions := ⟨true, false, ","⟩

/-- internals::set_to_string of the render header: an empty set prints
a bare brace pair; otherwise elements are streamed with the element
spacer and separator dictated by the options, each prefixed with the
compact-dependent space. -/
def set_to_string (options : PrintOptions) (l : List Int) : String :=
  let space := if options.compact then "" else "\t"
  let elementSpacer := if options.compact then " " else "\n"
  if l.length = 0 then "\x7b\x7d"
  else
    let body := (l.foldl
      (fun (st : String × Bool) value =>
        let s1 := if !st.2 then st.1 ++ options.separator ++ elementSpacer else st.1
        (s1 ++ space ++ toString value, false))
      ("\x7b" ++ elementSpacer, true)).1
    let body := if options.trailingSeparator then body ++ options.separator else body
    body ++ elementSpacer ++ "\x7d"

namespace OrderedSet

variable {α : Type}

/-- ComparatorEqual: the equivalence OrderedSet hands to its
UnorderedSet base, mutual non-lessness of the two values. -/
def cmpEquiv (lt : α → α → Bool) (x y : α) : Bool :=
  !lt x y && !lt y x

/-- OrderedSet::find: first stored element mutually non-less with the
probe. -/
def find? (lt : α → α → Bool) (l : List α) (value : α) : Option α :=
  List.find? (fun x => !lt x value && !lt value x) l

/-- OrderedSet::count: number of stored elements mutually non-less with
the probe. -/
def count (lt : α → α → Bool) (l : List α) (value : α) : Nat :=
  l.countP (fun v => !lt v value && !lt value v)

/-- OrderedSet::insert(value, unique): unless unique finds an
equivalent element, walk past every stored element less than the value
and splice the value there. -/
def insert (lt : α → α → Bool) (unique : Bool) (l : List α) (value : α) : List α :=
  if !unique || (find? lt l value).isNone then
    l.takeWhile (fun x => lt x value) ++ value :: l.dropWhile (fun x => lt x value)
  else l

/-- OrderedSet construction from an initializer list: every element is
inserted with the default unique mode. -/
def fromList (lt : α → α → Bool) (vs : List α) : List α :=
  vs.foldl (fun acc v => insert lt true acc v) []

/-- Union-assignment os += s as an OrderedSet inherits it: the
UnorderedSet operator+= body runs, and because insert is not virtual in
this header it statically calls the base UnorderedSet::insert, which
appends at the back using the derived equivalence as _equal_compare. -/
def plusAssign (lt : α → α → Bool) (l : List α) (s : List α) : List α :=
  s.foldl (fun acc value => UnorderedSet.insert (cmpEquiv lt) true acc value) l

/-- Inner while of OrderedSet::unique: erase at j when the stored
values satisfy the misprinted guard, which compares *i with *j and then
*j with itself, advancing j only when no erase happened. -/
def uniqueInner (lt : α → α → Bool) :
    Nat → List α → Nat → Nat → List α
  | 0, l, _, _ => l
  | fuel + 1, l, i, j =>
    if j < l.length then
      match l[i]?, l[j]? with
      | some a, some b =>
        if !lt a b && !lt b b then uniqueInner lt fuel (l.eraseIdx j) i j
        else uniqueInner lt fuel l i (j + 1)
      | _, _ => l
    else l

/-- Outer for of OrderedSet::unique over the iterator i. -/
def uniqueOuter (lt : α → α → Bool) :
    Nat → List α → Nat → List α
  | 0, l, _ => l
  | fuel + 1, l, i =>
    if i < l.length then
      uniqueOuter lt fuel (uniqueInner lt (l.length + 1) l i (i + 1)) (i + 1)
    else l

/-- OrderedSet::unique with fuel covering both loops. -/
def unique (lt : α → α → Bool) (l : List α) : List α :=
  uniqueOuter lt (l.length + 1) l 0

/-- Helper of keepFirst carrying the already scanned prefix. -/
def keepFirstGo (lt : α → α → Bool) (seen : List α) : List α → List α
  | [] => []
  | x :: xs =>
    if seen.any (fun a => cmpEquiv lt a x) then keepFirstGo lt (seen ++ [x]) xs
    else x :: keepFirstGo lt (seen ++ [x]) xs

/-- Specification-side description of deduplication: keep a stored
element exactly when no earlier stored element is equivalent to it, so
the first occurrence of every equivalence class survives in order. -/
def keepFirst (lt : α → α → Bool) (l : List α) : List α :=
  keepFirstGo lt [] l

end OrderedSet

/-- std::equal_to on int, the default equality predicate of
UnorderedSet over int elements. -/
def intEq (a b : Int) : Bool := a == b

/-- std::less on int, the default order predicate of OrderedSet over
int elements. -/
def intLt (a b : Int) : Bool := decide (a < b)

namespace OrderedSet

variable {α : Type}

/-- States of an OrderedSet reachable through its defined public
operations: the empty constructor, insert with either unique mode
(which also covers construction from an initializer list, whose loop
inserts every listed value), and value erase in either mode whenever
the modelled execution terminates normally.  The erase runs the
inherited UnorderedSet code with ComparatorEqual as its equality. -/
inductive Reach (lt : α → α → Bool) : List α → Prop where
  | nil : Reach lt []
  | ins (value : α) (unique : Bool) {l : List α} :
      Reach lt l → Reach lt (insert lt unique l value)
  | ers (value : α) (all : Bool) {l : List α} {n : Nat} {l2 : List α} :
      Reach lt l →
      UnorderedSet.erase (cmpEquiv lt) all l value = .ok (n, l2) →
      Reach lt l2

end OrderedSet

namespace UnorderedSet

variable {α : Type}

/-- A normally terminating run of the erase-all loop only removes
elements: its final sequence is a sublist of the starting one. -/
theorem eraseAllLoop_ok_sublist (cmp : α → α → Bool) (value : α) :
    ∀ (fuel : Nat) (l : List α) (i ret n : Nat) (l2 : List α),
      eraseAllLoop cmp value fuel l i ret = .ok (n, l2) → List.Sublist l2 l := by
  intro fuel
  induction fuel with
  | zero => intro l i ret n l2 h; exact absurd h (by simp [eraseAllLoop])
  | succ fuel ih =>
    intro l i ret n l2 h
    rw [eraseAllLoop] at h
    by_cases hi : i = l.length
    · simp only [hi, if_pos] at h
      cases h
      exact List.Sublist.refl l
    · simp only [hi, if_neg, if_false] at h
      cases hx : l[i]? with
      | none => rw [hx] at h; exact absurd h (by simp)
      | some x =>
        rw [hx] at h
        by_cases hc : cmp x value = true
        · simp only [hc, if_pos] at h
          exact (ih (l.eraseIdx i) (i + 1) (ret + 1) n l2 h).trans
            (List.eraseIdx_sublist l i)
        · rw [Bool.not_eq_true] at hc
          simp only [hc, if_false] at h
          exact ih l (i + 1) ret n l2 h

/-- The single-occurrence erase only removes an element. -/
theorem eraseFirst_sublist (cmp : α → α → Bool) (l : List α) (value : α) :
    List.Sublist (eraseFirst cmp l value).2 l := by
  induction l with
  | nil => exact List.Sublist.refl []
  | cons x xs ih =>
    rw [eraseFirst]
    by_cases h : cmp x value = true
    · simp only [h, if_pos]
      exact List.sublist_cons_self x xs
    · rw [Bool.not_eq_true] at h
      simp only [h, Bool.false_eq_true, if_false]
      exact List.Sublist.cons₂ x ih

/-- Every normally terminating erase leaves a sublist of the original
backing sequence. -/
theorem erase_ok_sublist (cmp : α → α → Bool) (all : Bool) (l : List α)
    (value : α) (n : Nat) (l2 : List α)
    (h : erase cmp all l value = .ok (n, l2)) : List.Sublist l2 l := by
  unfold erase at h
  cases all with
  | false =>
    simp only [Bool.not_false, if_pos] at h
    have h2 : eraseFirst cmp l value = (n, l2) := by
      injection h
    have h3 : l2 = (eraseFirst cmp l value).2 := by rw [h2]
    rw [h3]
    exact eraseFirst_sublist cmp l value
  | true =>
    simp only [Bool.not_true, if_false] at h
    exact eraseAllLoop_ok_sublist cmp value (l.length + 2) l 0 0 n l2 h

end UnorderedSet

namespace OrderedSet

variable {α : Type}

/-- Every element surviving the insertion scan of OrderedSet::insert is
not below the inserted value, provided mutual non-lessness propagates
backwards along the sorted prefix. -/
theorem dropWhile_lt_false (lt : α → α → Bool)
    (hNegTrans : ∀ x y z, lt y x = false → lt z y = false → lt z x = false)
    (value : α) :
    ∀ (l : List α), List.Pairwise (fun x y => lt y x = false) l →
      ∀ y ∈ l.dropWhile (fun x => lt x value), lt y value = false := by
  intro l
  induction l with
  | nil => intro _ y hy; simp at hy
  | cons x xs ih =>
    intro hl y hy
    rw [List.dropWhile_cons] at hy
    cases hxa : lt x value with
    | true =>
      simp only [hxa, if_pos] at hy
      exact ih (List.pairwise_cons.1 hl).2 y hy
    | false =>
      simp only [hxa, Bool.false_eq_true, if_false] at hy
      rcases List.mem_cons.1 hy with hyx | hyxs
      · subst hyx; exact hxa
      · exact hNegTrans value x y hxa ((List.pairwise_cons.1 hl).1 y hyxs)

/-- OrderedSet::insert preserves global sortedness of the backing
sequence when the order predicate is asymmetric and mutual non-lessness
propagates. -/
theorem insert_pairwise (lt : α → α → Bool)
    (hAsym : ∀ x y, lt x y = true → lt y x = false)
    (hNegTrans : ∀ x y z, lt y x = false → lt z y = false → lt z x = false)
    {l : List α} (hl : List.Pairwise (fun x y => lt y x = false) l)
    (value : α) (unique : Bool) :
    List.Pairwise (fun x y => lt y x = false) (insert lt unique l value) := by
  unfold insert
  by_cases hcond : (!unique || (find? lt l value).isNone) = true
  · simp only [hcond, if_pos]
    have hl2 : List.Pairwise (fun x y => lt y x = false)
        (l.takeWhile (fun x => lt x value) ++ l.dropWhile (fun x => lt x value)) := by
      rw [@List.takeWhile_append_dropWhile _ (fun x => lt x value) l]
      exact hl
    obtain ⟨h1, h2, h3⟩ := List.pairwise_append.1 hl2
    refine List.pairwise_append.2 ⟨h1, ?_, ?_⟩
    · refine List.pairwise_cons.2 ⟨?_, h2⟩
      intro y hy
      exact dropWhile_lt_false lt hNegTrans value l hl y hy
    · intro x hx y hy
      rcases List.mem_cons.1 hy with hyv | hyd
      · have hx2 : lt x value = true := by
          simpa using List.mem_takeWhile_imp hx
        rw [hyv]
        exact hAsym x value hx2
      · exact h3 x hx y hyd
  · rw [Bool.not_eq_true] at hcond
    simp only [hcond, Bool.false_eq_true, if_false]
    exact hl

/-- Sortedness of every reachable OrderedSet state, in the strong
pairwise form. -/
theorem reach_pairwise (lt : α → α → Bool)
    (hAsym : ∀ x y, lt x y = true → lt y x = false)
    (hNegTrans : ∀ x y z, lt y x = false → lt z y = false → lt z x = false)
    {l : List α} (h : Reach lt l) :
    List.Pairwise (fun x y => lt y x = false) l := by
  induction h with
  | nil => exact List.Pairwise.nil
  | ins value unique _ ih => exact insert_pairwise lt hAsym hNegTrans ih value unique
  | ers value all _ herase ih =>
    exact ih.sublist (UnorderedSet.erase_ok_sublist (cmpEquiv lt) all _ value _ _ herase)

end OrderedSet

/-- C3 counterexample.  The claim also ranges over union, but the
inherited compound union runs the base-class append insert (insert is
not virtual in this header), so the OrderedSet built from the literal
list 5 and then union-assigned the OrderedSet built from 1 stores the
sequence 5, 1, whose adjacent pair violates non-decrease under the int
order predicate. -/
theorem orderedSet_union_breaks_sortedness :
    OrderedSet.plusAssign intLt (OrderedSet.fromList intLt [5])
      (OrderedSet.fromList intLt [1]) = [5, 1] ∧
    ¬ List.Chain' (fun x y : Int => intLt y x = false) [5, 1] := by
  constructor
  · rfl
  · intro hch
    exact absurd (List.chain'_cons.1 hch).1 (by decide)

/-- C3 amended.  For every OrderedSet reachable by construction from a
literal list, insert with or without unique, and value erase -- the
public operations that do not fall back to the base-class append
insert -- the backing sequence iterated front to back is non-decreasing
under the order predicate: the predicate never holds of an adjacent
pair read backwards.  The order predicate is assumed asymmetric, with
mutual non-lessness propagating, as the source demands of a strict
order predicate. -/
theorem orderedSet_reachable_sorted {α : Type} (lt : α → α → Bool)
    (hAsym : ∀ x y, lt x y = true → lt y x = false)
    (hNegTrans : ∀ x y z, lt y x = false → lt z y = false → lt z x = false)
    {l : List α} (h : OrderedSet.Reach lt l) :
    List.Chain' (fun x y => lt y x = false) l :=
  (OrderedSet.reach_pairwise lt hAsym hNegTrans h).chain'

/-- C3 witness: the sortedness conclusion evaluated on the OrderedSet
over Fin 5 reached by inserting 3, then 1, then 2. -/
theorem orderedSet_reachable_sorted_witness :
    List.Chain' (fun x y : Fin 5 => decide (y < x) = false)
      (OrderedSet.insert (fun a b : Fin 5 => decide (a < b)) true
        (OrderedSet.insert (fun a b : Fin 5 => decide (a < b)) true
          (OrderedSet.insert (fun a b : Fin 5 => decide (a < b)) true [] 3) 1) 2) :=
  orderedSet_reachable_sorted (fun a b : Fin 5 => decide (a < b))
    (by decide) (by decide)
    (OrderedSet.Reach.ins 2 true (OrderedSet.Reach.ins 1 true
      (OrderedSet.Reach.ins 3 true OrderedSet.Reach.nil)))

end CppSet

namespace CppSet

open UnorderedSet in
/-- C1.  Evaluation of combinations at the inputs where the claim and
the code part ways: on the three-element set 1,2,3 and on the empty
set, combinations(0) first records the single empty selection and then
calls _increase_counters on an empty counter vector, whose
long int i = c.size() - 1 wraps to -1 and indexes c[-1], an
out-of-bounds vector access, instead of returning normally; and
combinations(-1) throws out_of_range because the int argument is
converted to size_t in the guard n > _set.size(), although -1 is not
greater than the size.  For contrast, the in-range arguments 1..3
return normally with the expected selections. -/
theorem combinations_zero_out_of_bounds :
    combinations intEq [1, 2, 3] 0 = .error .outOfBounds ∧
    combinations intEq ([] : List Int) 0 = .error .outOfBounds ∧
    combinations intEq [1, 2, 3] (-1) = .error .outOfRange ∧
    combinations intEq [1, 2, 3] 4 = .error .outOfRange ∧
    combinations intEq [1, 2, 3] 2 = .ok [[1, 2], [1, 3], [2, 3]] ∧
    combinations intEq [1, 2, 3] 3 = .ok [[1, 2, 3]] := by
  refine ⟨?_, ?_, ?_, ?_, ?_, ?_⟩ <;> rfl

open UnorderedSet in
/-- C2.  Evaluation of intersectionWith at a failing input: for the
operands 1,2,3 and 4,5,6,7 the enumeration loop erases 1 and (skipping
an element) 3 from the very sequence it iterates, after which the
cached end iterator makes it dereference past the shrunken vector -- an
out-of-bounds access in place of the empty intersection the claim
promises.  The companion equation shows a benign case in which only the
final position is erased and the loop happens to terminate cleanly. -/
theorem intersectionWith_runs_out_of_bounds :
    intersectionWith intEq [1, 2, 3] [4, 5, 6, 7] = .error .outOfBounds ∧
    intersectionWith intEq [1, 2] [2, 3] = .ok [2] := by
  exact ⟨rfl, rfl⟩

open UnorderedSet in
/-- C8.  Evaluation of erase at the failing inputs: with all = true on
the multiset 1,1 (reachable through insert(1, false) twice) the loop
erases the first copy and its iterator then skips the second, returning
1 with the duplicate still stored, where the claim requires 2 and an
empty set; and on 1,2,3 erasing 3 with all = true removes the final
element, after which the iterator jumps past end() and the next
dereference is out of bounds.  The single-occurrence branch behaves as
claimed on the same inputs. -/
theorem erase_all_skips_and_overruns :
    UnorderedSet.insert intEq false (UnorderedSet.insert intEq false [] 1) 1
      = [1, 1] ∧
    erase intEq true [1, 1] 1 = .ok (1, [1]) ∧
    erase intEq true [1, 2, 3] 3 = .error .outOfBounds ∧
    erase intEq false [1, 1] 1 = .ok (1, [1]) ∧
    erase intEq false [1, 2, 3] 7 = .ok (0, [1, 2, 3]) := by
  refine ⟨?_, ?_, ?_, ?_, ?_⟩ <;> rfl

namespace UnorderedSet

/-- The inner pass of UnorderedSet::unique leaves the sequence alone
whenever the fixed iterator i lies strictly before the running
iterator j, because the only erasing branch demands i = j. -/
theorem uniqueInner_id {α : Type} (i : Nat) :
    ∀ (fuel j : Nat) (l : List α), i < j → uniqueInner i fuel j l = l := by
  intro fuel
  induction fuel with
  | zero => intro j l _; rfl
  | succ fuel ih =>
    intro j l hij
    show uniqueInner i (fuel + 1) j l = l
    rw [uniqueInner]
    by_cases hj : j < l.length
    · simp only [hj, if_pos]
      have hne : ¬ i = j := Nat.ne_of_lt hij
      simp only [hne, if_neg, if_false]
      exact ih (j + 1) l (Nat.lt_succ_of_lt hij)
    · simp only [hj, if_neg, if_false]

/-- The outer pass of UnorderedSet::unique therefore also leaves the
sequence alone. -/
theorem uniqueOuter_id {α : Type} :
    ∀ (fuel i : Nat) (l : List α), uniqueOuter fuel i l = l := by
  intro fuel
  induction fuel with
  | zero => intro i l; rfl
  | succ fuel ih =>
    intro i l
    show uniqueOuter (fuel + 1) i l = l
    rw [uniqueOuter]
    by_cases hi : i < l.length
    · simp only [hi, if_pos]
      rw [uniqueInner_id i (l.length + 1) (i + 1) l (Nat.lt_succ_self i)]
      exact ih (i + 1) l
    · simp only [hi, if_neg, if_false]

end UnorderedSet

/-- C4.  UnorderedSet::unique removes nothing: since the inner iterator
starts one past the outer one and the erase guard compares the two
iterators for equality, no erase can ever fire, and the backing
sequence after the call is exactly the sequence before it. -/
theorem unique_removes_nothing {α : Type} (l : List α) :
    UnorderedSet.unique l = l := by
  unfold UnorderedSet.unique
  exact UnorderedSet.uniqueOuter_id (l.length + 1) 0 l

/-- C4 witness: the no-op behaviour of unique evaluated on the concrete
multiset 1,2,1,3. -/
theorem unique_removes_nothing_witness :
    UnorderedSet.unique [1, 2, 1, 3] = [(1 : Int), 2, 1, 3] :=
  unique_removes_nothing [1, 2, 1, 3]

open UnorderedSet in
/-- C9 counterexample.  Rendering the set 1,2,3 (as built by the
initializer-list constructor) with default options does not produce the
claimed text: compact mode pads the braces and the separators with
single spaces. -/
theorem set_to_string_not_unpadded :
    ¬ (set_to_string PrintOptions.default
        (UnorderedSet.union intEq [] [1, 2, 3]) = "\x7b1,2,3\x7d") := by
  decide

open UnorderedSet in
/-- C9 amended.  An empty set renders in compact mode as the bare brace
pair, and the set 1,2,3 under the default options (compact on, no
trailing separator, comma) renders as an open brace, the space-joined
elements separated by comma plus space, and a space before the closing
brace. -/
theorem set_to_string_default_renders :
    set_to_string PrintOptions.default ([] : List Int) = "\x7b\x7d" ∧
    set_to_string PrintOptions.default (UnorderedSet.union intEq [] [1, 2, 3])
      = "\x7b 1, 2, 3 \x7d" := by
  exact ⟨rfl, rfl⟩

end CppSet



namespace CppSet

namespace UnorderedSet

variable {α : Type}

/-- After erasing the first element equivalent to the probe, no
equivalent element remains, provided the equality predicate is
symmetric and transitive and the sequence held no two equivalent
elements. -/
theorem eraseFirst_no_equiv (cmp : α → α → Bool)
    (hSym : ∀ x y, cmp x y = cmp y x)
    (hTrans : ∀ x y z, cmp x y = true → cmp y z = true → cmp x z = true)
    (v : α) :
    ∀ (l : List α), List.Pairwise (fun x y => cmp x y = false) l →
      ∀ y ∈ (eraseFirst cmp l v).2, cmp y v = false := by
  intro l
  induction l with
  | nil => intro _ y hy; simp [eraseFirst] at hy
  | cons x xs ih =>
    intro hl y hy
    rw [eraseFirst] at hy
    by_cases hcx : cmp x v = true
    · simp only [hcx, if_pos] at hy
      cases hyv : cmp y v with
      | false => rfl
      | true =>
        have hvy : cmp v y = true := by rw [hSym v y]; exact hyv
        have hxy : cmp x y = true := hTrans x v y hcx hvy
        have hfalse : cmp x y = false := (List.pairwise_cons.1 hl).1 y hy
        rw [hxy] at hfalse
        exact absurd hfalse (by simp)
    · rw [Bool.not_eq_true] at hcx
      simp only [hcx, Bool.false_eq_true, if_false] at hy
      rcases List.mem_cons.1 hy with hyx | hyxs
      · rw [hyx]; exact hcx
      · exact ih (List.pairwise_cons.1 hl).2 y hyxs

/-- The set difference is carved out of the left operand: its backing
sequence is a sublist of the left operand's. -/
theorem diff_sublist (cmp : α → α → Bool) :
    ∀ (b a : List α), List.Sublist (diff cmp a b) a := by
  intro b
  induction b with
  | nil => intro a; exact List.Sublist.refl a
  | cons v b1 ih =>
    intro a
    show List.Sublist (diff cmp ((eraseFirst cmp a v).2) b1) a
    exact (ih ((eraseFirst cmp a v).2)).trans (eraseFirst_sublist cmp a v)

/-- Element-level statement behind the amended difference claim. -/
theorem diff_no_common_mem (cmp : α → α → Bool)
    (hSym : ∀ x y, cmp x y = cmp y x)
    (hTrans : ∀ x y z, cmp x y = true → cmp y z = true → cmp x z = true) :
    ∀ (b a : List α), List.Pairwise (fun x y => cmp x y = false) a →
      ∀ y ∈ diff cmp a b, ∀ v ∈ b, cmp y v = false := by
  intro b
  induction b with
  | nil => intro a _ y _ v hv; simp at hv
  | cons v0 b1 ih =>
    intro a ha y hy v hv
    have hstep : diff cmp a (v0 :: b1) = diff cmp ((eraseFirst cmp a v0).2) b1 := rfl
    rw [hstep] at hy
    have ha1 : List.Pairwise (fun x y => cmp x y = false) ((eraseFirst cmp a v0).2) :=
      ha.sublist (eraseFirst_sublist cmp a v0)
    rcases List.mem_cons.1 hv with hvv | hvb1
    · have hy1 : y ∈ (eraseFirst cmp a v0).2 :=
        (diff_sublist cmp b1 ((eraseFirst cmp a v0).2)).subset hy
      rw [hvv]
      exact eraseFirst_no_equiv cmp hSym hTrans v0 a ha y hy1
    · exact ih ((eraseFirst cmp a v0).2) ha1 y hy v hvb1

end UnorderedSet

open UnorderedSet in
/-- C5 counterexample.  The claim ranges over all sets, but a left
operand holding two equivalent elements is reachable through
insert(1, false); the difference erases only the first equivalent
occurrence per right-hand element, so subtracting the set 1 from the
multiset 1,1 leaves an element still equivalent to an element of the
right operand. -/
theorem diff_leaves_duplicate :
    UnorderedSet.insert intEq false (UnorderedSet.insert intEq false [] 1) 1
      = [1, 1] ∧
    diff intEq [1, 1] [1] = [1] ∧
    (diff intEq [1, 1] [1]).any (fun y => [(1 : Int)].any (fun v => intEq y v))
      = true := by
  refine ⟨rfl, rfl, rfl⟩

open UnorderedSet in
/-- C5 amended.  When the equality predicate is symmetric and
transitive and the left operand stores no two equivalent elements (the
invariant of default-unique insertion), the difference contains no
element equivalent to any element of the right operand. -/
theorem diff_no_common_elements {α : Type} (cmp : α → α → Bool)
    (hSym : ∀ x y, cmp x y = cmp y x)
    (hTrans : ∀ x y z, cmp x y = true → cmp y z = true → cmp x z = true)
    (a b : List α) (ha : List.Pairwise (fun x y => cmp x y = false) a) :
    (diff cmp a b).all (fun y => b.all (fun v => !cmp y v)) = true := by
  rw [List.all_eq_true]
  intro y hy
  rw [List.all_eq_true]
  intro v hv
  have := UnorderedSet.diff_no_common_mem cmp hSym hTrans b a ha y hy v hv
  rw [this]
  rfl

open UnorderedSet in
/-- C5 witness: the amended difference property evaluated over Fin 3
with its equality, left operand 0,1 and right operand 1,2. -/
theorem diff_no_common_elements_witness :
    (diff (fun a b : Fin 3 => a == b) [0, 1] [1, 2]).all
      (fun y => [(1 : Fin 3), 2].all (fun v => !(y == v))) = true :=
  diff_no_common_elements (fun a b : Fin 3 => a == b)
    (by decide) (by decide) [0, 1] [1, 2] (by decide)

end CppSet

namespace CppSet

namespace UnorderedSet

variable {α : Type}

/-- Congruence of any under pointwise equal predicates. -/
theorem anyCongr {p q : α → Bool} :
    ∀ (l : List α), (∀ x ∈ l, p x = q x) → l.any p = l.any q := by
  intro l
  induction l with
  | nil => intro _; rfl
  | cons x xs ih =>
    intro h
    rw [List.any_cons, List.any_cons, h x (List.mem_cons_self x xs),
      ih (fun y hy => h y (List.mem_cons_of_mem x hy))]

/-- Congruence of countP under pointwise equal predicates. -/
theorem countPCongr {p q : α → Bool} :
    ∀ (l : List α), (∀ x ∈ l, p x = q x) → l.countP p = l.countP q := by
  intro l
  induction l with
  | nil => intro _; rfl
  | cons x xs ih =>
    intro h
    rw [List.countP_cons, List.countP_cons, h x (List.mem_cons_self x xs),
      ih (fun y hy => h y (List.mem_cons_of_mem x hy))]

/-- A predicate and its pointwise negation partition the length. -/
theorem countP_not_add (p q : α → Bool) (hpq : ∀ x, q x = !p x) :
    ∀ (l : List α), l.countP p + l.countP q = l.length := by
  intro l
  induction l with
  | nil => rfl
  | cons x xs ih =>
    rw [List.countP_cons, List.countP_cons, hpq x]
    cases hx : p x with
    | false => simp only [hx, Bool.not_false, Bool.false_eq_true, if_false, if_true,
        List.length_cons]; omega
    | true => simp only [hx, Bool.not_true, Bool.false_eq_true, if_false, if_true,
        List.length_cons]; omega

/-- countP distributes over a disjunction of predicates no element
satisfies jointly. -/
theorem countP_or_disjoint (p q : α → Bool) :
    ∀ (l : List α), (∀ v ∈ l, ¬(p v = true ∧ q v = true)) →
      l.countP (fun v => p v || q v) = l.countP p + l.countP q := by
  intro l
  induction l with
  | nil => intro _; rfl
  | cons x xs ih =>
    intro h
    have hx := h x (List.mem_cons_self x xs)
    have ih2 := ih (fun v hv => h v (List.mem_cons_of_mem x hv))
    rw [List.countP_cons, List.countP_cons, List.countP_cons, ih2]
    cases hp : p x with
    | true =>
      cases hq : q x with
      | true => exact absurd ⟨hp, hq⟩ hx
      | false =>
        simp only [hp, hq, Bool.true_or, if_true, Bool.false_eq_true, if_false]
        omega
    | false =>
      cases hq : q x with
      | true =>
        simp only [hp, hq, Bool.false_or, if_true, Bool.false_eq_true, if_false]
        omega
      | false =>
        simp only [hp, hq, Bool.false_or, Bool.false_eq_true, if_false]
        omega

/-- A list in which no two elements jointly satisfy p holds at most one
element satisfying p. -/
theorem countP_le_one_pw (p : α → Bool) :
    ∀ (l : List α), List.Pairwise (fun x y => ¬(p x = true ∧ p y = true)) l →
      l.countP p ≤ 1 := by
  intro l
  induction l with
  | nil => intro _; simp
  | cons x xs ih =>
    intro hl
    obtain ⟨hhead, htail⟩ := List.pairwise_cons.1 hl
    rw [List.countP_cons]
    cases hx : p x with
    | false =>
      simp only [hx, Bool.false_eq_true, if_false]
      simpa using ih htail
    | true =>
      have h0 : xs.countP p = 0 :=
        List.countP_eq_zero.2 (fun a ha hpa => hhead a ha ⟨hx, hpa⟩)
      simp [h0, hx]

/-- Double-counting of the matching between two sequences without
equivalent repetitions: the number of right elements matched by some
left element equals the number of left elements matched by some right
element. -/
theorem matchedCount (cmp : α → α → Bool)
    (hSym : ∀ x y, cmp x y = cmp y x)
    (hTrans : ∀ x y z, cmp x y = true → cmp y z = true → cmp x z = true)
    (b : List α) (hb : List.Pairwise (fun x y => cmp x y = false) b) :
    ∀ (a : List α), List.Pairwise (fun x y => cmp x y = false) a →
      b.countP (fun v => a.any (fun x => cmp x v))
        = a.countP (fun x => b.any (fun v => cmp v x)) := by
  intro a
  induction a with
  | nil =>
    intro _
    rw [List.countP_nil]
    exact List.countP_eq_zero.2 (fun v _ h => by simp [List.any_nil] at h)
  | cons x0 a1 ih =>
    intro ha
    obtain ⟨hhead, htail⟩ := List.pairwise_cons.1 ha
    have hstep1 : b.countP (fun v => (x0 :: a1).any (fun x => cmp x v))
        = b.countP (fun v => cmp x0 v || a1.any (fun x => cmp x v)) :=
      countPCongr b (fun v _ => by rw [List.any_cons])
    have hdisj : ∀ v ∈ b,
        ¬(cmp x0 v = true ∧ (a1.any (fun x => cmp x v)) = true) := by
      intro v _ hconj
      obtain ⟨h1, h2⟩ := hconj
      obtain ⟨x1, hx1, hcx1⟩ := List.any_eq_true.1 h2
      have hvx1 : cmp v x1 = true := by rw [hSym]; exact hcx1
      have hxx : cmp x0 x1 = true := hTrans x0 v x1 h1 hvx1
      have hf := hhead x1 hx1
      rw [hxx] at hf
      exact absurd hf (by simp)
    have hsplit := countP_or_disjoint (fun v => cmp x0 v)
      (fun v => a1.any (fun x => cmp x v)) b hdisj
    have hle1 : b.countP (fun v => cmp x0 v) ≤ 1 := by
      have himp : ∀ y z : α, cmp y z = false →
          ¬(cmp x0 y = true ∧ cmp x0 z = true) := by
        intro y z hyz hconj
        obtain ⟨h1, h2⟩ := hconj
        have hyx0 : cmp y x0 = true := by rw [hSym]; exact h1
        have hyzT : cmp y z = true := hTrans y x0 z hyx0 h2
        rw [hyzT] at hyz
        exact absurd hyz (by simp)
      exact countP_le_one_pw _ b (hb.imp (fun hab => himp _ _ hab))
    have hmatch : b.countP (fun v => cmp x0 v)
        = if b.any (fun v => cmp v x0) then 1 else 0 := by
      cases hany : b.any (fun v => cmp v x0) with
      | true =>
        obtain ⟨v, hv, hcv⟩ := List.any_eq_true.1 hany
        have hx0v : cmp x0 v = true := by rw [hSym]; exact hcv
        have hpos : 0 < b.countP (fun v => cmp x0 v) :=
          List.countP_pos_iff.2 ⟨v, hv, hx0v⟩
        simp only [if_true]
        omega
      | false =>
        simp only [Bool.false_eq_true, if_false]
        refine List.countP_eq_zero.2 ?_
        intro v hv hx0v
        have hcv : cmp v x0 = true := by rw [hSym]; exact hx0v
        have hT : b.any (fun v => cmp v x0) = true :=
          List.any_eq_true.2 ⟨v, hv, hcv⟩
        rw [hT] at hany
        exact absurd hany (by simp)
    have hstep2 : (x0 :: a1).countP (fun x => b.any (fun v => cmp v x))
        = a1.countP (fun x => b.any (fun v => cmp v x))
          + if b.any (fun v => cmp v x0) then 1 else 0 :=
      List.countP_cons _ _ _
    rw [hstep1, hsplit, hmatch, hstep2, ih htail]
    omega

/-- Structure of the union fold: while the right operand carries no two
equivalent elements and the extra accumulated block e is fresh for it,
inserting the right operand into a ++ e keeps a ++ e and appends
exactly the right elements not matched inside a. -/
theorem union_append_filter (cmp : α → α → Bool) :
    ∀ (b a e : List α), List.Pairwise (fun x y => cmp x y = false) b →
      (∀ v ∈ b, ∀ x ∈ e, cmp x v = false) →
      union cmp (a ++ e) b
        = (a ++ e) ++ b.filter (fun v => !(a.any (fun x => cmp x v))) := by
  intro b
  induction b with
  | nil => intro a e _ _; simp [union]
  | cons v0 b1 ih =>
    intro a e hb hfresh
    obtain ⟨hhead, htail⟩ := List.pairwise_cons.1 hb
    have hstep : union cmp (a ++ e) (v0 :: b1)
        = union cmp (insert cmp true (a ++ e) v0) b1 := rfl
    cases hacc : a.any (fun x => cmp x v0) with
    | false =>
      have hnone : find? cmp (a ++ e) v0 = none := by
        rw [find?]
        refine List.find?_eq_none.2 ?_
        intro x hx hpx
        rcases List.mem_append.1 hx with hxa | hxe
        · have hT : a.any (fun x => cmp x v0) = true :=
            List.any_eq_true.2 ⟨x, hxa, hpx⟩
          rw [hT] at hacc
          exact absurd hacc (by simp)
        · have hf := hfresh v0 (List.mem_cons_self v0 b1) x hxe
          rw [hpx] at hf
          exact absurd hf (by simp)
      have hins : insert cmp true (a ++ e) v0 = a ++ (e ++ [v0]) := by
        rw [insert, hnone]
        simp [List.append_assoc]
      have hfresh2 : ∀ v ∈ b1, ∀ x ∈ e ++ [v0], cmp x v = false := by
        intro v hv x hx
        rcases List.mem_append.1 hx with hxe | hxv0
        · exact hfresh v (List.mem_cons_of_mem v0 hv) x hxe
        · rw [List.mem_singleton.1 hxv0]
          exact hhead v hv
      rw [hstep, hins, ih a (e ++ [v0]) htail hfresh2]
      have hq : (!(a.any (fun x => cmp x v0))) = true := by simp [hacc]
      rw [List.filter_cons]
      simp only [hq, if_true]
      simp [List.append_assoc]
    | true =>
      have hsome : (find? cmp (a ++ e) v0).isNone = false := by
        obtain ⟨x, hxa, hpx⟩ := List.any_eq_true.1 hacc
        rw [find?]
        cases hf : List.find? (fun x => cmp x v0) (a ++ e) with
        | some w => rfl
        | none =>
          have hnone2 := List.find?_eq_none.1 hf x (List.mem_append.2 (Or.inl hxa))
          exact absurd hpx hnone2
      have hins : insert cmp true (a ++ e) v0 = a ++ e := by
        rw [insert, hsome]
        simp
      rw [hstep, hins,
        ih a e htail (fun v hv x hx => hfresh v (List.mem_cons_of_mem v0 hv) x hx)]
      have hq : (!(a.any (fun x => cmp x v0))) = false := by simp [hacc]
      rw [List.filter_cons]
      simp only [hq, Bool.false_eq_true, if_false]

/-- The union of two sequences, when the right one has no equivalent
repetitions, is the left sequence followed by the unmatched right
elements. -/
theorem union_characterization (cmp : α → α → Bool) (a b : List α)
    (hb : List.Pairwise (fun x y => cmp x y = false) b) :
    union cmp a b = a ++ b.filter (fun v => !(a.any (fun x => cmp x v))) := by
  have h := union_append_filter cmp b a [] hb
    (fun v _ x hx => absurd hx (List.not_mem_nil x))
  simpa using h

/-- Length of the union through the filter characterization. -/
theorem union_length (cmp : α → α → Bool) (a b : List α)
    (hb : List.Pairwise (fun x y => cmp x y = false) b) :
    (union cmp a b).length
      = a.length + b.countP (fun v => !(a.any (fun x => cmp x v))) := by
  rw [union_characterization cmp a b hb, List.length_append,
    List.countP_eq_length_filter]

/-- The two union orders produce sequences of the same length. -/
theorem union_length_comm (cmp : α → α → Bool)
    (hSym : ∀ x y, cmp x y = cmp y x)
    (hTrans : ∀ x y z, cmp x y = true → cmp y z = true → cmp x z = true)
    (a b : List α)
    (ha : List.Pairwise (fun x y => cmp x y = false) a)
    (hb : List.Pairwise (fun x y => cmp x y = false) b) :
    (union cmp a b).length = (union cmp b a).length := by
  have e1 := union_length cmp a b hb
  have e2 := union_length cmp b a ha
  have e3 := countP_not_add (fun v => a.any (fun x => cmp x v))
    (fun v => !(a.any (fun x => cmp x v))) (fun _ => rfl) b
  have e4 := countP_not_add (fun v => b.any (fun x => cmp x v))
    (fun v => !(b.any (fun x => cmp x v))) (fun _ => rfl) a
  have e5 := matchedCount cmp hSym hTrans b hb a ha
  omega

/-- Containment of one union order in the other. -/
theorem containsAll_union_union (cmp : α → α → Bool)
    (hRefl : ∀ x, cmp x x = true) (hSym : ∀ x y, cmp x y = cmp y x)
    (a b : List α)
    (ha : List.Pairwise (fun x y => cmp x y = false) a)
    (hb : List.Pairwise (fun x y => cmp x y = false) b) :
    containsAll cmp (union cmp a b) (union cmp b a) = true := by
  rw [containsAll, List.all_eq_true]
  intro z hz
  rw [union_characterization cmp b a ha] at hz
  rw [List.any_eq_true]
  rcases List.mem_append.1 hz with hzb | hzfa
  · cases hmatch : a.any (fun x => cmp x z) with
    | true =>
      obtain ⟨x, hxa, hcx⟩ := List.any_eq_true.1 hmatch
      refine ⟨x, ?_, ?_⟩
      · rw [union_characterization cmp a b hb]
        exact List.mem_append.2 (Or.inl hxa)
      · rw [hSym]; exact hcx
    | false =>
      refine ⟨z, ?_, hRefl z⟩
      rw [union_characterization cmp a b hb]
      refine List.mem_append.2 (Or.inr ?_)
      exact List.mem_filter.2 ⟨hzb, by simp [hmatch]⟩
  · have hza : z ∈ a := List.mem_of_mem_filter hzfa
    refine ⟨z, ?_, hRefl z⟩
    rw [union_characterization cmp a b hb]
    exact List.mem_append.2 (Or.inl hza)

/-- One-sided containment forces the probe sequence to be no longer
than the container when neither holds equivalent repetitions. -/
theorem containsAll_length_le (cmp : α → α → Bool)
    (hSym : ∀ x y, cmp x y = cmp y x)
    (hTrans : ∀ x y z, cmp x y = true → cmp y z = true → cmp x z = true)
    (a b : List α)
    (ha : List.Pairwise (fun x y => cmp x y = false) a)
    (hb : List.Pairwise (fun x y => cmp x y = false) b)
    (h : containsAll cmp a b = true) : b.length ≤ a.length := by
  rw [containsAll] at h
  have hall := List.all_eq_true.1 h
  have hfull : b.countP (fun value => a.any (fun v => cmp value v)) = b.length :=
    List.countP_eq_length.2 (fun v hv => hall v hv)
  have hflip : b.countP (fun value => a.any (fun v => cmp value v))
      = b.countP (fun value => a.any (fun x => cmp x value)) := by
    apply countPCongr
    intro v _
    exact anyCongr a (fun x _ => hSym v x)
  have hmc := matchedCount cmp hSym hTrans b hb a ha
  have hle : a.countP (fun x => b.any (fun v => cmp v x)) ≤ a.length :=
    List.countP_le_length _
  omega

end UnorderedSet

open UnorderedSet in
/-- C6 counterexample.  The claim ranges over all sets, but a left
operand with two equivalent elements is reachable through
insert(1, false) twice; unioning it with the empty set preserves both
copies while the reverse union deduplicates, so the two unions differ
already in size and the set equality operator rejects them. -/
theorem union_not_commutative_on_multiset :
    UnorderedSet.insert intEq false (UnorderedSet.insert intEq false [] 1) 1
      = [1, 1] ∧
    union intEq [1, 1] [] = [1, 1] ∧
    union intEq [] [1, 1] = [1] ∧
    UnorderedSet.eq intEq (union intEq [1, 1] []) (union intEq [] [1, 1])
      = false := by
  refine ⟨rfl, rfl, rfl, rfl⟩

open UnorderedSet in
/-- C6 amended.  When the equality predicate is an equivalence
(reflexive, symmetric, transitive) and neither operand stores two
equivalent elements (the invariant of default-unique insertion), union
is commutative up to the set's own equality operator. -/
theorem union_commutes_up_to_set_eq {α : Type} (cmp : α → α → Bool)
    (hRefl : ∀ x, cmp x x = true)
    (hSym : ∀ x y, cmp x y = cmp y x)
    (hTrans : ∀ x y z, cmp x y = true → cmp y z = true → cmp x z = true)
    (a b : List α)
    (ha : List.Pairwise (fun x y => cmp x y = false) a)
    (hb : List.Pairwise (fun x y => cmp x y = false) b) :
    UnorderedSet.eq cmp (union cmp a b) (union cmp b a) = true := by
  rw [UnorderedSet.eq, union_length_comm cmp hSym hTrans a b ha hb,
    bne_self_eq_false]
  simp only [Bool.false_eq_true, if_false]
  rw [UnorderedSet.contains]
  simp only [if_true]
  rw [containsAll_union_union cmp hRefl hSym a b ha hb,
    containsAll_union_union cmp hRefl hSym b a hb ha]
  rfl

open UnorderedSet in
/-- C6 witness: commutativity up to set equality evaluated over Fin 3
with its equality on the operands 0,1 and 1,2. -/
theorem union_commutes_up_to_set_eq_witness :
    UnorderedSet.eq (fun a b : Fin 3 => a == b)
      (union (fun a b : Fin 3 => a == b) [0, 1] [1, 2])
      (union (fun a b : Fin 3 => a == b) [1, 2] [0, 1]) = true :=
  union_commutes_up_to_set_eq (fun a b : Fin 3 => a == b)
    (by decide) (by decide) (by decide) [0, 1] [1, 2] (by decide) (by decide)

open UnorderedSet in
/-- C7 counterexample.  Strict containment does not compare sizes, so
the multiset 1,1 (reachable through insert(1, false)) strictly contains
and is contained in the set 1, while operator== rejects the pair for
their different sizes. -/
theorem contains_strict_without_eq :
    UnorderedSet.insert intEq false (UnorderedSet.insert intEq false [] 1) 1
      = [1, 1] ∧
    UnorderedSet.contains intEq [1, 1] [1] true = true ∧
    UnorderedSet.eq intEq [1, 1] [1] = false := by
  refine ⟨rfl, rfl, rfl⟩

open UnorderedSet in
/-- C7 amended.  When the equality predicate is symmetric and
transitive and neither operand stores two equivalent elements, strict
containment agrees exactly with the set equality operator: mutual
containment of repetition-free sequences forces equal sizes. -/
theorem contains_strict_is_set_eq {α : Type} (cmp : α → α → Bool)
    (hSym : ∀ x y, cmp x y = cmp y x)
    (hTrans : ∀ x y z, cmp x y = true → cmp y z = true → cmp x z = true)
    (a b : List α)
    (ha : List.Pairwise (fun x y => cmp x y = false) a)
    (hb : List.Pairwise (fun x y => cmp x y = false) b) :
    UnorderedSet.contains cmp a b true = UnorderedSet.eq cmp a b := by
  rw [UnorderedSet.eq]
  by_cases hlen : a.length = b.length
  · have hf : (a.length != b.length) = false := by
      rw [hlen]; exact bne_self_eq_false b.length
    rw [hf]
    simp
  · have hbne : (a.length != b.length) = true := bne_iff_ne.2 hlen
    rw [hbne]
    simp only [if_true]
    cases hc : UnorderedSet.contains cmp a b true with
    | false => rfl
    | true =>
      exfalso
      have hc2 : (containsAll cmp a b && containsAll cmp b a) = true := hc
      have hc3 : containsAll cmp a b = true := by
        cases h1 : containsAll cmp a b
        · rw [h1] at hc2; simp at hc2
        · rfl
      have hc4 : containsAll cmp b a = true := by
        cases h2 : containsAll cmp b a
        · rw [h2] at hc2; simp at hc2
        · rfl
      have hba : b.length ≤ a.length :=
        containsAll_length_le cmp hSym hTrans a b ha hb hc3
      have hab : a.length ≤ b.length :=
        containsAll_length_le cmp hSym hTrans b a hb ha hc4
      omega

open UnorderedSet in
/-- C7 witness: the agreement of strict containment and set equality
evaluated over Fin 3 with its equality on the operands 0,1 and 1,0. -/
theorem contains_strict_is_set_eq_witness :
    UnorderedSet.contains (fun a b : Fin 3 => a == b) [0, 1] [1, 0] true
      = UnorderedSet.eq (fun a b : Fin 3 => a == b) [0, 1] [1, 0] :=
  contains_strict_is_set_eq (fun a b : Fin 3 => a == b)
    (by decide) (by decide) [0, 1] [1, 0] (by decide) (by decide)

end CppSet

namespace CppSet

namespace OrderedSet

variable {α : Type}

/-- One unfolding of the inner while of OrderedSet::unique at a valid
position pair. -/
theorem uniqueInner_step (lt : α → α → Bool) (fuel : Nat) (l : List α)
    (i j : Nat) (a b : α) (hj : j < l.length)
    (hia : l[i]? = some a) (hjb : l[j]? = some b) :
    uniqueInner lt (fuel + 1) l i j
      = if !lt a b && !lt b b then uniqueInner lt fuel (l.eraseIdx j) i j
        else uniqueInner lt fuel l i (j + 1) := by
  simp only [uniqueInner, hj, if_true, hia, hjb]

/-- The inner while of OrderedSet::unique scans the positions from j on
and erases exactly those whose stored value b fails the misprinted
guard against the pinned value a, leaving the prefix before j
untouched. -/
theorem uniqueInner_spec (lt : α → α → Bool) :
    ∀ (fuel : Nat) (l : List α) (i j : Nat) (a : α),
      l[i]? = some a → i < j → l.length - j ≤ fuel →
      uniqueInner lt fuel l i j
        = l.take j ++ (l.drop j).filter (fun b => lt a b || lt b b) := by
  intro fuel
  induction fuel with
  | zero =>
    intro l i j a _ _ hfuel
    have hj : l.length ≤ j := by omega
    simp only [List.take_of_length_le hj, List.drop_of_length_le hj,
      List.filter_nil, List.append_nil]
    rfl
  | succ fuel ih =>
    intro l i j a hia hij hfuel
    by_cases hj : j < l.length
    · cases hjb : l[j]? with
      | none =>
        exfalso
        rw [List.getElem?_eq_none_iff] at hjb
        omega
      | some b =>
        rw [uniqueInner_step lt fuel l i j a b hj hia hjb]
        by_cases hguard : (!lt a b && !lt b b) = true
        · rw [if_pos hguard]
          have hlen : (l.eraseIdx j).length = l.length - 1 :=
            List.length_eraseIdx_of_lt hj
          have hia2 : (l.eraseIdx j)[i]? = some a := by
            rw [List.eraseIdx_eq_take_drop_succ]
            have hti : (l.take j)[i]? = some a := by
              rw [List.getElem?_take_of_lt hij]
              exact hia
            rw [List.getElem?_append_left]
            · exact hti
            · rw [List.length_take]; omega
          rw [ih (l.eraseIdx j) i j a hia2 hij (by omega)]
          have htlen : (l.take j).length = j := by rw [List.length_take]; omega
          rw [List.eraseIdx_eq_take_drop_succ, List.take_left' htlen,
            List.drop_left' htlen]
          have hdrop : l.drop j = b :: l.drop (j + 1) := by
            rw [List.drop_eq_getElem_cons hj]
            have : l[j] = b := by
              have h2 := List.getElem?_eq_getElem hj
              rw [hjb] at h2
              exact (Option.some.inj h2).symm
            rw [this]
          rw [hdrop, List.filter_cons]
          have hqb : (lt a b || lt b b) = false := by
            cases h1 : lt a b <;> cases h2 : lt b b <;>
              simp [h1, h2] at hguard ⊢
          simp only [hqb, Bool.false_eq_true, if_false]
        · rw [if_neg hguard]
          rw [ih l i (j + 1) a hia (by omega) (by omega)]
          have hdrop : l.drop j = b :: l.drop (j + 1) := by
            rw [List.drop_eq_getElem_cons hj]
            have : l[j] = b := by
              have h2 := List.getElem?_eq_getElem hj
              rw [hjb] at h2
              exact (Option.some.inj h2).symm
            rw [this]
          rw [hdrop, List.filter_cons]
          have hqb : (lt a b || lt b b) = true := by
            cases h1 : lt a b <;> cases h2 : lt b b <;>
              simp [h1, h2] at hguard ⊢
          simp only [hqb, if_true]
          rw [List.take_succ, hjb]
          simp [List.append_assoc]
    · have hj2 : l.length ≤ j := by omega
      simp only [uniqueInner, hj, if_false, List.take_of_length_le hj2,
        List.drop_of_length_le hj2, List.filter_nil, List.append_nil]

/-- Reference deduplication the unique loops compute: keep the head and
recurse on the tail filtered by the loop's guard against the head. -/
def dedupD (lt : α → α → Bool) : List α → List α
  | [] => []
  | a :: rest => a :: dedupD lt (rest.filter (fun b => lt a b || lt b b))
termination_by l => l.length
decreasing_by
  simp only [List.length_cons]
  exact Nat.lt_succ_of_le (List.length_filter_le _ _)

/-- The outer for of OrderedSet::unique leaves the scanned prefix and
deduplicates the remainder in the sense of dedupD. -/
theorem uniqueOuter_spec (lt : α → α → Bool) :
    ∀ (fuel : Nat) (l : List α) (i : Nat), l.length - i ≤ fuel →
      uniqueOuter lt fuel l i = l.take i ++ dedupD lt (l.drop i) := by
  intro fuel
  induction fuel with
  | zero =>
    intro l i hfuel
    have hi : l.length ≤ i := by omega
    simp only [List.take_of_length_le hi, List.drop_of_length_le hi, dedupD,
      List.append_nil]
    rfl
  | succ fuel ih =>
    intro l i hfuel
    by_cases hi : i < l.length
    · have hia : l[i]? = some l[i] := List.getElem?_eq_getElem hi
      have hinner := uniqueInner_spec lt (l.length + 1) l i (i + 1) l[i]
        hia (Nat.lt_succ_self i) (by omega)
      simp only [uniqueOuter, hi, if_true]
      rw [hinner]
      have hlen1 : (l.take (i + 1)).length = i + 1 := by
        rw [List.length_take]; omega
      have hflen := List.length_filter_le
        (fun b => lt l[i] b || lt b b) (l.drop (i + 1))
      have hdl : (l.drop (i + 1)).length = l.length - (i + 1) :=
        List.length_drop (i + 1) l
      have hbound : (l.take (i + 1)
          ++ (l.drop (i + 1)).filter (fun b => lt l[i] b || lt b b)).length
          - (i + 1) ≤ fuel := by
        rw [List.length_append, hlen1]
        omega
      rw [ih _ (i + 1) hbound]
      rw [List.take_left' hlen1, List.drop_left' hlen1]
      rw [List.drop_eq_getElem_cons hi, dedupD]
      have htake : l.take (i + 1) = l.take i ++ [l[i]] := by
        rw [List.take_succ, hia]
        rfl
      rw [htake, List.append_assoc]
      rfl
    · have hi2 : l.length ≤ i := by omega
      simp only [uniqueOuter, hi, if_false, List.take_of_length_le hi2,
        List.drop_of_length_le hi2, dedupD, List.append_nil]

/-- OrderedSet::unique computes exactly the head-guard deduplication,
with no hypotheses on the order predicate. -/
theorem unique_eq_dedupD (lt : α → α → Bool) (l : List α) :
    unique lt l = dedupD lt l := by
  unfold unique
  have h := uniqueOuter_spec lt (l.length + 1) l 0 (by omega)
  simpa using h

end OrderedSet

end CppSet

namespace CppSet

namespace OrderedSet

variable {α : Type}

/-- The derived equivalence is symmetric by construction. -/
theorem cmpEquiv_comm (lt : α → α → Bool) (a b : α) :
    cmpEquiv lt a b = cmpEquiv lt b a := by
  rw [cmpEquiv, cmpEquiv]
  exact Bool.and_comm _ _

/-- keepFirstGo only inspects its scanned prefix through the any-test,
so prefixes with the same tests produce the same result. -/
theorem keepFirstGo_congr (lt : α → α → Bool) :
    ∀ (l seen1 seen2 : List α),
      (∀ x, seen1.any (fun s => cmpEquiv lt s x)
        = seen2.any (fun s => cmpEquiv lt s x)) →
      keepFirstGo lt seen1 l = keepFirstGo lt seen2 l := by
  intro l
  induction l with
  | nil => intro _ _ _; rfl
  | cons x xs ih =>
    intro seen1 seen2 h
    rw [keepFirstGo, keepFirstGo, h x]
    have h2 : ∀ y, (seen1 ++ [x]).any (fun s => cmpEquiv lt s y)
        = (seen2 ++ [x]).any (fun s => cmpEquiv lt s y) := by
      intro y
      rw [List.any_append, List.any_append, h y]
    rw [ih (seen1 ++ [x]) (seen2 ++ [x]) h2]

/-- Appending to the scanned prefix an element equivalent to one it
already holds changes no test, provided the derived equivalence is
transitive. -/
theorem any_equiv_append_redundant (lt : α → α → Bool)
    (hTrans : ∀ x y z, cmpEquiv lt x y = true → cmpEquiv lt y z = true →
      cmpEquiv lt x z = true)
    (seen : List α) (w s : α) (hs : s ∈ seen)
    (hsw : cmpEquiv lt s w = true) :
    ∀ y, (seen ++ [w]).any (fun u => cmpEquiv lt u y)
      = seen.any (fun u => cmpEquiv lt u y) := by
  intro y
  rw [List.any_append]
  cases hwy : cmpEquiv lt w y with
  | false => simp [hwy]
  | true =>
    have hsy : cmpEquiv lt s y = true := hTrans s w y hsw hwy
    have hT : seen.any (fun u => cmpEquiv lt u y) = true :=
      List.any_eq_true.2 ⟨s, hs, hsy⟩
    simp [hT, hwy]

/-- Bridge between the head-guard deduplication and the keep-first
description: on a sorted remainder, filtering out the head's guard
matches dropping later elements through a scanned prefix extended with
the head. -/
theorem keepFirstGo_filter (lt : α → α → Bool)
    (hIrr : ∀ x, lt x x = false)
    (hTrans : ∀ x y z, cmpEquiv lt x y = true → cmpEquiv lt y z = true →
      cmpEquiv lt x z = true)
    (a : α) :
    ∀ (rest seen : List α),
      List.Pairwise (fun x y => lt y x = false) (a :: rest) →
      keepFirstGo lt (seen ++ [a]) rest
        = keepFirstGo lt seen (rest.filter (fun b => lt a b || lt b b)) := by
  intro rest
  induction rest with
  | nil => intro seen _; rfl
  | cons b rest1 ih =>
    intro seen hsort
    have hsort1 : List.Pairwise (fun x y => lt y x = false) (a :: rest1) :=
      hsort.sublist ((List.sublist_cons_self b rest1).cons₂ a)
    have hba : lt b a = false :=
      (List.pairwise_cons.1 hsort).1 b (List.mem_cons_self b rest1)
    rw [List.filter_cons]
    cases hq : (lt a b || lt b b) with
    | false =>
      have hab : lt a b = false := by
        cases h1 : lt a b
        · rfl
        · rw [h1] at hq; simp at hq
      have heq : cmpEquiv lt a b = true := by
        rw [cmpEquiv, hab, hba]; rfl
      rw [keepFirstGo]
      have htest : (seen ++ [a]).any (fun s => cmpEquiv lt s b) = true := by
        refine List.any_eq_true.2 ⟨a, ?_, heq⟩
        exact List.mem_append.2 (Or.inr (List.mem_singleton.2 rfl))
      rw [htest]
      simp only [if_true, Bool.false_eq_true, if_false]
      have hred := any_equiv_append_redundant lt hTrans (seen ++ [a]) b a
        (List.mem_append.2 (Or.inr (List.mem_singleton.2 rfl))) heq
      rw [keepFirstGo_congr lt rest1 ((seen ++ [a]) ++ [b]) (seen ++ [a]) hred]
      exact ih seen hsort1
    | true =>
      have hab : lt a b = true := by
        cases h1 : lt a b
        · rw [h1] at hq
          simp [hIrr b] at hq
        · rfl
      have heq : cmpEquiv lt a b = false := by
        rw [cmpEquiv, hab]; rfl
      simp only [if_true]
      rw [keepFirstGo, keepFirstGo]
      have htest : (seen ++ [a]).any (fun s => cmpEquiv lt s b)
          = seen.any (fun s => cmpEquiv lt s b) := by
        rw [List.any_append]
        simp [heq]
      rw [htest]
      have htail : keepFirstGo lt ((seen ++ [a]) ++ [b]) rest1
          = keepFirstGo lt (seen ++ [b])
              (rest1.filter (fun c => lt a c || lt c c)) := by
        have hswap : ∀ y, ((seen ++ [a]) ++ [b]).any (fun s => cmpEquiv lt s y)
            = ((seen ++ [b]) ++ [a]).any (fun s => cmpEquiv lt s y) := by
          intro y
          rw [List.any_append, List.any_append, List.any_append, List.any_append]
          cases h1 : seen.any (fun s => cmpEquiv lt s y) <;>
            cases h2 : [a].any (fun s => cmpEquiv lt s y) <;>
              cases h3 : [b].any (fun s => cmpEquiv lt s y) <;> simp [h1, h2, h3]
        rw [keepFirstGo_congr lt rest1 _ _ hswap]
        exact ih (seen ++ [b]) hsort1
      rw [htail]

/-- On a sorted sequence with an irreflexive order predicate and a
transitive derived equivalence, the head-guard deduplication keeps
exactly the first stored occurrence of every equivalence class. -/
theorem dedupD_eq_keepFirst (lt : α → α → Bool)
    (hIrr : ∀ x, lt x x = false)
    (hTrans : ∀ x y z, cmpEquiv lt x y = true → cmpEquiv lt y z = true →
      cmpEquiv lt x z = true) :
    ∀ (n : Nat) (l : List α), l.length ≤ n →
      List.Pairwise (fun x y => lt y x = false) l →
      dedupD lt l = keepFirst lt l := by
  intro n
  induction n with
  | zero =>
    intro l hn _
    have hl : l = [] := List.eq_nil_of_length_eq_zero (Nat.le_zero.1 hn)
    rw [hl]
    simp only [dedupD]
    rfl
  | succ n ih =>
    intro l hn hsort
    cases l with
    | nil => simp only [dedupD]; rfl
    | cons a rest =>
      rw [dedupD, keepFirst, keepFirstGo]
      simp only [List.any_nil, Bool.false_eq_true, if_false]
      rw [keepFirstGo_filter lt hIrr hTrans a rest [] hsort]
      have hfl : (rest.filter (fun b => lt a b || lt b b)).length ≤ n := by
        have h1 := List.length_filter_le (fun b => lt a b || lt b b) rest
        simp only [List.length_cons] at hn
        omega
      have hfsort : List.Pairwise (fun x y => lt y x = false)
          (rest.filter (fun b => lt a b || lt b b)) :=
        ((List.pairwise_cons.1 hsort).2).sublist (List.filter_sublist rest)
      rw [ih _ hfl hfsort]
      rfl

/-- The head-guard deduplication only removes elements. -/
theorem dedupD_sublist (lt : α → α → Bool) :
    ∀ (n : Nat) (l : List α), l.length ≤ n →
      List.Sublist (dedupD lt l) l := by
  intro n
  induction n with
  | zero =>
    intro l hn
    have hl : l = [] := List.eq_nil_of_length_eq_zero (Nat.le_zero.1 hn)
    rw [hl]
    simp only [dedupD]
    exact List.Sublist.refl []
  | succ n ih =>
    intro l hn
    cases l with
    | nil =>
      simp only [dedupD]
      exact List.Sublist.refl []
    | cons a rest =>
      rw [dedupD]
      refine List.Sublist.cons₂ a ?_
      have hfl : (rest.filter (fun b => lt a b || lt b b)).length ≤ n := by
        have h1 := List.length_filter_le (fun b => lt a b || lt b b) rest
        simp only [List.length_cons] at hn
        omega
      exact (ih _ hfl).trans (List.filter_sublist rest)

/-- After the head-guard deduplication no two stored elements are
equivalent, for an irreflexive order predicate. -/
theorem dedupD_pairwise (lt : α → α → Bool) (hIrr : ∀ x, lt x x = false) :
    ∀ (n : Nat) (l : List α), l.length ≤ n →
      List.Pairwise (fun x y => cmpEquiv lt x y = false) (dedupD lt l) := by
  intro n
  induction n with
  | zero =>
    intro l hn
    have hl : l = [] := List.eq_nil_of_length_eq_zero (Nat.le_zero.1 hn)
    rw [hl]
    simp only [dedupD]
    exact List.Pairwise.nil
  | succ n ih =>
    intro l hn
    cases l with
    | nil =>
      simp only [dedupD]
      exact List.Pairwise.nil
    | cons a rest =>
      rw [dedupD]
      have hfl : (rest.filter (fun b => lt a b || lt b b)).length ≤ n := by
        have h1 := List.length_filter_le (fun b => lt a b || lt b b) rest
        simp only [List.length_cons] at hn
        omega
      refine List.pairwise_cons.2 ⟨?_, ih _ hfl⟩
      intro y hy
      have hyf : y ∈ rest.filter (fun b => lt a b || lt b b) :=
        (dedupD_sublist lt n _ hfl).subset hy
      have hq : (lt a y || lt y y) = true := (List.mem_filter.1 hyf).2
      have hay : lt a y = true := by
        cases h1 : lt a y
        · rw [h1] at hq; simp [hIrr y] at hq
        · rfl
      rw [cmpEquiv, hay]
      rfl

end OrderedSet

/-- Pathological but irreflexive order predicate over Fin 3 used to
refute the unamended claim: only 0 is below 1, everything else is
incomparable. -/
def ltPatho (a b : Fin 3) : Bool := a == 0 && b == 1

open OrderedSet in
/-- C10 counterexample.  The order predicate ltPatho is irreflexive and
the backing sequence 0, 1 satisfies the sortedness invariant, yet
unique() removes nothing (0 and 1 are not mutually non-less) and the
value 2 is order-equivalent to both stored elements, so its count after
unique() is 2, contradicting the claimed bound of 1: irreflexivity
alone does not make the derived equivalence transitive. -/
theorem orderedSet_unique_count_two :
    ltPatho 0 0 = false ∧ ltPatho 1 1 = false ∧ ltPatho 2 2 = false ∧
    ltPatho 1 0 = false ∧
    OrderedSet.unique ltPatho [0, 1] = [0, 1] ∧
    OrderedSet.count ltPatho (OrderedSet.unique ltPatho [0, 1]) 2 = 2 := by
  refine ⟨rfl, rfl, rfl, rfl, rfl, rfl⟩

open OrderedSet in
/-- C10 amended.  For a sorted backing sequence, an irreflexive order
predicate whose derived equivalence is moreover transitive, unique()
does deduplicate: it returns exactly the first stored occurrence of
every order-derived equivalence class, and afterwards every value
counts at most once. -/
theorem orderedSet_unique_keeps_first {α : Type} (lt : α → α → Bool)
    (hIrr : ∀ x, lt x x = false)
    (hTrans : ∀ x y z, cmpEquiv lt x y = true → cmpEquiv lt y z = true →
      cmpEquiv lt x z = true)
    (l : List α)
    (hSorted : List.Pairwise (fun x y => lt y x = false) l) :
    OrderedSet.unique lt l = keepFirst lt l ∧
    ∀ v, OrderedSet.count lt (OrderedSet.unique lt l) v ≤ 1 := by
  constructor
  · rw [unique_eq_dedupD]
    exact dedupD_eq_keepFirst lt hIrr hTrans l.length l (Nat.le_refl _) hSorted
  · intro v
    rw [unique_eq_dedupD, OrderedSet.count]
    have hpw := dedupD_pairwise lt hIrr l.length l (Nat.le_refl _)
    have himp : ∀ x y : α, cmpEquiv lt x y = false →
        ¬((!lt x v && !lt v x) = true ∧ (!lt y v && !lt v y) = true) := by
      intro x y hxy hconj
      obtain ⟨h1, h2⟩ := hconj
      have e1 : cmpEquiv lt x v = true := h1
      have e2 : cmpEquiv lt y v = true := h2
      have e3 : cmpEquiv lt v y = true := by rw [cmpEquiv_comm]; exact e2
      have e4 : cmpEquiv lt x y = true := hTrans x v y e1 e3
      rw [e4] at hxy
      exact absurd hxy (by simp)
    exact UnorderedSet.countP_le_one_pw _ _ (hpw.imp (fun hab => himp _ _ hab))

open OrderedSet in
/-- C10 witness: deduplication and the count bound evaluated over Fin 2
with its strict order on the sorted multiset 0, 0, 1. -/
theorem orderedSet_unique_keeps_first_witness :
    OrderedSet.unique (fun a b : Fin 2 => decide (a < b)) [0, 0, 1]
      = keepFirst (fun a b : Fin 2 => decide (a < b)) [0, 0, 1] ∧
    OrderedSet.count (fun a b : Fin 2 => decide (a < b))
      (OrderedSet.unique (fun a b : Fin 2 => decide (a < b)) [0, 0, 1]) 0 ≤ 1 :=
  ⟨(orderedSet_unique_keeps_first (fun a b : Fin 2 => decide (a < b))
      (by decide) (by decide) [0, 0, 1] (by decide)).1,
   (orderedSet_unique_keeps_first (fun a b : Fin 2 => decide (a < b))
      (by decide) (by decide) [0, 0, 1] (by decide)).2 0⟩

end CppSet
